import Mathlib

/-!
Verification of the string-column core of this repository: the statistics
truncation functions (`truncate_down` / `truncate_up`), the plain page
encoder (`encode_plain`), the statistics builder (`build_statistics`), the
growable builder for constant string columns (`GrowableConstUtf8`), the
flight message dispatch (`deserialize_dictionary` / `deserialize_message`)
and the arrow-schema metadata reader (`get_arrow_schema_from_metadata`).

Strings are modelled as lists of Unicode code points (`List Nat`), matching
Rust's `char` view of a `String`; byte-level facts go through an explicit
UTF-8 encoder `utf8Bytes`.
-/

namespace Arrow2

/-- Unicode scalar values: below the surrogate range or above it and below
`0x110000`.  This is exactly the set of values a Rust `char` can hold. -/
def isValidScalar (n : Nat) : Prop :=
  n < 0xD800 ∨ (0xE000 ≤ n ∧ n < 0x110000)

instance (n : Nat) : Decidable (isValidScalar n) := by
  unfold isValidScalar; infer_instance

/-- Byte length of the UTF-8 encoding of code point `n`
(Rust `char::len_utf8`). -/
def utf8Len (n : Nat) : Nat :=
  if n < 0x80 then 1
  else if n < 0x800 then 2
  else if n < 0x10000 then 3
  else 4

/-- The UTF-8 encoding of code point `n` as a list of bytes. -/
def utf8Bytes (n : Nat) : List Nat :=
  if n < 0x80 then [n]
  else if n < 0x800 then [0xC0 + n / 0x40, 0x80 + n % 0x40]
  else if n < 0x10000 then
    [0xE0 + n / 0x1000, 0x80 + n / 0x40 % 0x40, 0x80 + n % 0x40]
  else
    [0xF0 + n / 0x40000, 0x80 + n / 0x1000 % 0x40, 0x80 + n / 0x40 % 0x40,
      0x80 + n % 0x40]

/-- The UTF-8 bytes of a string (Rust `str::as_bytes`). -/
def strBytes (s : List Nat) : List Nat :=
  (s.map utf8Bytes).flatten

/-- The UTF-8 byte length of a string (Rust `str::len`). -/
def byteLen (s : List Nat) : Nat :=
  (s.map utf8Len).sum

/-- Strict unsigned lexicographic order on byte sequences: the order Rust
uses when comparing `&[u8]` (and hence `String` bytes) with `<`. -/
def bytesLtB : List Nat → List Nat → Bool
  | _, [] => false
  | [], _ :: _ => true
  | a :: as, b :: bs =>
    if a < b then true else if a = b then bytesLtB as bs else false

/-! ## Statistics truncation (`src/io/parquet/write/utf8/basic.rs`) -/

/-- The fixed cap on statistics byte length (`MAX_STAT_LENGTH`). -/
def MAX_STAT_LENGTH : Nat := 256

/-- Longest prefix of `s` whose UTF-8 byte length is at most `cap`.

The source scans byte indices `cap, cap-1, …` for the largest
`is_char_boundary` index and slices there; since the character boundaries of
a string are exactly the running byte-length sums of its character prefixes
(which are strictly increasing), that largest boundary is reached by greedily
taking characters while they fit, which is what this function does. -/
def takePrefixWithin (cap : Nat) : List Nat → List Nat
  | [] => []
  | c :: cs =>
    if utf8Len c ≤ cap then c :: takePrefixWithin (cap - utf8Len c) cs else []

/-- The characters of `s` that `takePrefixWithin cap` leaves out. -/
def dropWithin (cap : Nat) : List Nat → List Nat
  | [] => []
  | c :: cs =>
    if utf8Len c ≤ cap then dropWithin (cap - utf8Len c) cs else c :: cs

/-- Code-point increment used by `truncate_up`, in the order of the source's
match arms: ordinary scalars are incremented by one, `U+D7FF` jumps the
surrogate gap to `U+E000`, and everything else (only `U+10FFFF` for a Rust
`char`) is pinned to `U+10FFFF`. -/
def incCodepoint (n : Nat) : Nat :=
  if n ≤ 0xD7FE ∨ (0xE000 ≤ n ∧ n ≤ 0x10FFFE) then n + 1
  else if n = 0xD7FF then 0xE000
  else 0x10FFFF

/-- `truncate_down` from the source: strings within the cap are returned
unchanged, longer ones are cut at the largest character boundary within the
cap. -/
def truncate_down (s : List Nat) : List Nat :=
  if byteLen s ≤ MAX_STAT_LENGTH then s else takePrefixWithin MAX_STAT_LENGTH s

/-- The `pop`/`push` pair at the end of `truncate_up`: replace the last
character by its increment.  On `[]` the source's `pop().unwrap()` would
panic; that case is unreachable for the inputs `truncate_up` feeds it,
because a string longer than the cap has a nonempty prefix within the cap
(every character occupies at most 4 ≤ 256 bytes). -/
def pushIncLast : List Nat → List Nat
  | [] => []
  | c :: cs =>
    (c :: cs).dropLast ++ [incCodepoint ((c :: cs).getLast (List.cons_ne_nil c cs))]

/-- `truncate_up` from the source: strings within the cap are returned
unchanged; longer ones are cut at the largest character boundary within the
cap and their last character is incremented. -/
def truncate_up (s : List Nat) : List Nat :=
  if byteLen s ≤ MAX_STAT_LENGTH then s
  else pushIncLast (takePrefixWithin MAX_STAT_LENGTH s)

/-! ## Constant string columns and their growable
(`src/array/const_utf8/mod.rs`, `src/array/growable/const_utf8.rs`) -/

/-- A column whose every logical entry is the same string, stored once
(`ConstUtf8Array`).  The value is a list of code points. -/
structure ConstUtf8Array where
  value : List Nat
  len : Nat
deriving DecidableEq

/-- The accumulating state of `GrowableConstUtf8`.  The borrowed source
arrays are passed separately to the operations rather than stored, so the
structure holds the four mutable fields of the source struct; `offsets` are
the `i32` offsets (always non-negative, hence `Nat`, with the `i32` overflow
of `try_into` modelled as a fatal failure in `extend`). -/
structure GrowableConstUtf8 where
  values : List Nat
  offsets : List Nat
  validity : List Bool
  length : Nat
deriving DecidableEq

/-- An immutable variable-length string column as materialized by
`GrowableConstUtf8::to` (a `Utf8Array<i32>` seen through its three
buffers). -/
structure Utf8Col where
  offsets : List Nat
  values : List Nat
  validity : Option (List Bool)
deriving DecidableEq

namespace GrowableConstUtf8

/-- `GrowableConstUtf8::new`: one initial offset `0`, empty buffers.  The
`capacity` and `use_validity` arguments of the source only pre-allocate and
are dropped. -/
def new : GrowableConstUtf8 :=
  { values := [], offsets := [0], validity := [], length := 0 }

/-- One iteration of the loop in `extend`: append the encoded value to the
values buffer and push the new byte length as an offset. -/
def pushValue (value : List Nat) (st : GrowableConstUtf8) : GrowableConstUtf8 :=
  let vs := st.values ++ value
  { st with values := vs, offsets := st.offsets ++ [vs.length] }

/-- The `for _ in 0..len` loop of `extend`. -/
def extendLoop (value : List Nat) (st : GrowableConstUtf8) :
    Nat → GrowableConstUtf8
  | 0 => st
  | k + 1 => extendLoop value (pushValue value st) k

/-- `GrowableConstUtf8::extend`: fetch the indexed source (a panic —
modelled as `none` — when out of range), append its encoded value `len`
times pushing one offset per append, then refresh the cached `length` from
the last offset.  The per-push `try_into` of the byte length into `i32` is
modelled by the final bound check: the values buffer only grows, so all
intermediate pushes fit exactly when the final length fits. -/
def extend (arrays : List ConstUtf8Array) (st : GrowableConstUtf8)
    (index _start len : Nat) : Option GrowableConstUtf8 :=
  match arrays[index]? with
  | none => none
  | some array =>
    let st' := extendLoop (strBytes array.value) st len
    if st'.values.length ≤ 2147483647 then
      some { st' with length := st'.offsets.getLastD 0 }
    else none

/-- `GrowableConstUtf8::extend_validity`: resize the offsets with copies of
the cached last offset and append `additional` unset validity bits. -/
def extend_validity (st : GrowableConstUtf8) (additional : Nat) :
    GrowableConstUtf8 :=
  { st with
    offsets := st.offsets ++ List.replicate additional st.length,
    validity := st.validity ++ List.replicate additional false }

/-- `GrowableConstUtf8::to` (used by `as_box` / `as_arc` / `From`): move the
three buffers into an immutable column.  The accumulated `MutableBitmap`
turns into `Option<Bitmap>`; modelled from the spec: a column with an absent
bitmap has all entries valid (§3), so a bitmap with no unset bit is dropped
and any bitmap with an unset bit is kept.  (`to` is a reserved word in Lean,
hence the name `toCol`.) -/
def toCol (st : GrowableConstUtf8) : Utf8Col :=
  { offsets := st.offsets,
    values := st.values,
    validity :=
      if st.validity.count false = 0 then none else some st.validity }

end GrowableConstUtf8

/-- One call against a `GrowableConstUtf8`: either
`extend(index, start, len)` or `extend_validity(additional)`. -/
inductive GrowOp : Type
  | extend (index start len : Nat)
  | extendValidity (additional : Nat)
deriving DecidableEq

/-- Dispatch one `GrowOp` on the state (a `none` is a fatal contract
violation in the source: out-of-range index or `i32` overflow). -/
def stepGrow (arrays : List ConstUtf8Array) (st : GrowableConstUtf8) :
    GrowOp → Option GrowableConstUtf8
  | .extend index start len => st.extend arrays index start len
  | .extendValidity additional => some (st.extend_validity additional)

/-- Run a sequence of calls against a `GrowableConstUtf8`. -/
def runGrow (arrays : List ConstUtf8Array) (st : GrowableConstUtf8) :
    List GrowOp → Option GrowableConstUtf8
  | [] => some st
  | op :: ops =>
    match stepGrow arrays st op with
    | none => none
    | some st' => runGrow arrays st' ops

/-- Number of logical entries a sequence of calls appends. -/
def numEntries : List GrowOp → Nat
  | [] => 0
  | .extend _ _ len :: ops => len + numEntries ops
  | .extendValidity additional :: ops => additional + numEntries ops

/-- The offsets part of the growable invariant (§3/§8 of the spec): the
offsets are nonempty, start at `0`, are non-decreasing, and end at the byte
length of the values buffer. -/
def GoodCore (st : GrowableConstUtf8) : Prop :=
  st.offsets ≠ [] ∧
  st.offsets.head? = some 0 ∧
  List.Chain' (fun a b => a ≤ b) st.offsets ∧
  st.offsets.getLast? = some st.values.length

/-- `GoodCore` plus the source's own field invariant, stated in its comment:
`length` is "always equal to the last offset at `offsets`". -/
def Good (st : GrowableConstUtf8) : Prop :=
  GoodCore st ∧ st.length = st.values.length

/-! ## Plain page encoding and statistics
(`src/io/parquet/write/utf8/basic.rs`) -/

/-- Modelled from the spec: a variable-length (string) column (§3) as the
encoder sees it — `Utf8Array` itself lives outside the provided sources.
Per §3 every offset window decodes to a valid string and null entries still
own a well-formed span, so the column is modelled by its per-entry decoded
strings plus the optional validity bitmap (absent bitmap = all valid). -/
structure Utf8Model where
  values : List (List Nat)
  validity : Option (List Bool)
deriving DecidableEq

namespace Utf8Model

/-- `array.iter()`: per-entry values paired with validity (`None` at null
entries); with no bitmap every entry is yielded as present. -/
def iterEntries (arr : Utf8Model) : List (Option (List Nat)) :=
  match arr.validity with
  | none => arr.values.map some
  | some bits => (arr.values.zip bits).map fun vb => if vb.2 then some vb.1 else none

/-- `array.null_count()`: number of unset validity bits. -/
def nullCount (arr : Utf8Model) : Nat :=
  match arr.validity with
  | none => 0
  | some bits => bits.count false

end Utf8Model

/-- The 4 little-endian bytes of `x.len() as u32`
(`(x.len() as u32).to_le_bytes()`). -/
def lenBytesLE (n : Nat) : List Nat :=
  let m := n % 4294967296
  [m % 256, m / 256 % 256, m / 65536 % 256, m / 16777216 % 256]

/-- The bytes `encode_plain` emits for one present entry: 4-byte LE length
prefix followed by the entry's UTF-8 bytes. -/
def encOne (v : List Nat) : List Nat :=
  lenBytesLE (byteLen v) ++ strBytes v

/-- `encode_plain`: when `is_optional`, iterate entries with validity and
append the prefixed bytes of each present one; otherwise iterate the raw
values and append every entry. -/
def encode_plain (arr : Utf8Model) (is_optional : Bool) (buffer : List Nat) :
    List Nat :=
  if is_optional then
    arr.iterEntries.foldl
      (fun buf x =>
        match x with
        | none => buf
        | some v => buf ++ encOne v)
      buffer
  else
    arr.values.foldl (fun buf v => buf ++ encOne v) buffer

/-- Modelled from the spec: `ord_binary` (defined in the binary write module,
outside the provided sources) is the byte-wise unsigned lexicographic
comparator used for min/max selection (§4.4). -/
def ordBinary : List Nat → List Nat → Ordering
  | [], [] => .eq
  | [], _ :: _ => .lt
  | _ :: _, [] => .gt
  | a :: as, b :: bs =>
    if a < b then .lt else if b < a then .gt else ordBinary as bs

/-- Rust `Iterator::max_by`: fold keeping the accumulator only while it is
strictly greater, so ties go to the later element. -/
def maxBy (cmp : α → α → Ordering) : List α → Option α
  | [] => none
  | x :: xs => some (xs.foldl (fun acc y => if cmp acc y = .gt then acc else y) x)

/-- Rust `Iterator::min_by`: fold replacing the accumulator only when it is
strictly greater, so ties go to the earlier element. -/
def minBy (cmp : α → α → Ordering) : List α → Option α
  | [] => none
  | x :: xs => some (xs.foldl (fun acc y => if cmp acc y = .gt then y else acc) x)

/-- The statistics record built by `build_statistics` (the fields of
`BinaryStatistics`; its final serialization belongs to an external crate).
Per the spec (§6) the record is
`{ null_count: i64?, min_value: bytes?, max_value: bytes? }` plus a
distinct count. -/
structure StatsRecord where
  null_count : Option Int
  distinct_count : Option Int
  max_value : Option (List Nat)
  min_value : Option (List Nat)
deriving DecidableEq

/-- `build_statistics`: null count read off the column, no distinct count,
max of `truncate_up` over the non-null entries under `ord_binary`, min of
`truncate_down` likewise. -/
def build_statistics (arr : Utf8Model) : StatsRecord :=
  { null_count := some (arr.nullCount : Int),
    distinct_count := none,
    max_value :=
      (maxBy (fun x y => ordBinary (strBytes x) (strBytes y))
        ((arr.iterEntries.filterMap id).map truncate_up)).map strBytes,
    min_value :=
      (minBy (fun x y => ordBinary (strBytes x) (strBytes y))
        ((arr.iterEntries.filterMap id).map truncate_down)).map strBytes }

/-! ## Flight deserialization (`src/io/flight/mod.rs`) -/

/-- The error variants this core produces on these paths (`Error::oos`,
`Error::nyi`, `Error::InvalidArgumentError`). -/
inductive Err : Type
  | oos (msg : String)
  | nyi (msg : String)
  | invalidArgument (msg : String)
deriving DecidableEq

/-- The decoded IPC message header variants (`ipc::MessageHeaderRef`): the
two kinds this core reads, plus the remaining header formats it does not
(schema, tensor, sparse tensor), carried with their debug rendering. -/
inductive HeaderRef : Type
  | recordBatch (batch : Nat)
  | dictionaryBatch (batch : Nat)
  | other (debugText : String)
deriving DecidableEq

/-- `deserialize_dictionary`, after the header has been decoded from the
envelope (`read_as_root`/`header()` parsing is the collaborator's; the
reading of the actual dictionary batch, `read::read_dictionary`, lives
outside the provided sources and is abstracted as `readDict`).  A missing
header is an out-of-spec error; a header of any non-dictionary kind returns
`Ok` with the dictionaries untouched. -/
def deserialize_dictionary {δ : Type} (readDict : Nat → δ → Except Err δ)
    (header : Option HeaderRef) (dictionaries : δ) : Except Err δ :=
  match header with
  | none => .error (.oos "Header is required")
  | some (.dictionaryBatch chunk) => do
    let d ← readDict chunk dictionaries
    pure d
  | some _ => .ok dictionaries

/-- The not-yet-implemented message `deserialize_message` formats for an
unhandled header kind. -/
def nyiText (debugText : String) : String :=
  "Reading types other than record batches not yet supported, unable to read "
    ++ debugText

/-- `deserialize_message`: a record batch header is read into a chunk, a
dictionary batch header upserts the dictionaries and yields no chunk, and
every other header kind is a "not yet implemented" error.  A missing header
is an out-of-spec error.  `read::read_record_batch` and
`read::read_dictionary` live outside the provided sources and are
abstracted as `readBatch` / `readDict`. -/
def deserialize_message {δ χ : Type} (readBatch : Nat → δ → Except Err χ)
    (readDict : Nat → δ → Except Err δ) (header : Option HeaderRef)
    (dictionaries : δ) : Except Err (δ × Option χ) :=
  match header with
  | none => .error (.oos "IPC Message must contain a header")
  | some (.recordBatch batch) => do
    let chunk ← readBatch batch dictionaries
    pure (dictionaries, some chunk)
  | some (.dictionaryBatch batch) => do
    let d ← readDict batch dictionaries
    pure (d, none)
  | some (.other t) => .error (.nyi (nyiText t))

/-! ## Arrow schema from parquet metadata
(`src/io/parquet/read/schema/metadata.rs`) -/

/-- Outcome of `get_arrow_schema_from_metadata`: a schema, a recoverable
error, or a panic (an out-of-bounds slice index). -/
inductive MetaOut (σ : Type) : Type
  | panic
  | err (e : Err)
  | ok (s : σ)
deriving DecidableEq

/-- Lift the result of the schema deserializer into `MetaOut`. -/
def MetaOut.ofExcept {σ : Type} : Except Err σ → MetaOut σ
  | .ok s => .ok s
  | .error e => .err e

/-- `get_arrow_schema_from_metadata`, taking the outcome of the external
`base64::decode` as input (`Except` of the decode error's debug text) and
the external `deserialize_schema` as `deser`.  On decoded bytes the source
compares `bytes[0..4]` with four `0xFF` bytes — an out-of-bounds panic when
fewer than 4 bytes were decoded — and on a match deserializes from
`bytes[8..]` — an out-of-bounds panic when fewer than 8 bytes were decoded.
A failed base64 decode is an `InvalidArgumentError`. -/
def get_arrow_schema_from_metadata {σ : Type} (deser : List Nat → Except Err σ) :
    Except String (List Nat) → MetaOut σ
  | .error e =>
    .err (.invalidArgument
      ("Unable to decode the encoded schema stored in ARROW:schema, " ++ e))
  | .ok bytes =>
    if bytes.length < 4 then .panic
    else if bytes.take 4 = [0xFF, 0xFF, 0xFF, 0xFF] then
      if bytes.length < 8 then .panic
      else MetaOut.ofExcept (deser (bytes.drop 8))
    else MetaOut.ofExcept (deser bytes)

/-! ## Helper lemmas -/

theorem utf8Bytes_length (n : Nat) : (utf8Bytes n).length = utf8Len n := by
  unfold utf8Bytes utf8Len; split_ifs <;> rfl

theorem utf8Len_pos (n : Nat) : 0 < utf8Len n := by
  unfold utf8Len; split_ifs <;> omega

theorem utf8Len_le_four (n : Nat) : utf8Len n ≤ 4 := by
  unfold utf8Len; split_ifs <;> omega

theorem strBytes_append (s t : List Nat) :
    strBytes (s ++ t) = strBytes s ++ strBytes t := by
  simp [strBytes]

theorem byteLen_append (s t : List Nat) :
    byteLen (s ++ t) = byteLen s + byteLen t := by
  simp [byteLen]

theorem strBytes_length (s : List Nat) : (strBytes s).length = byteLen s := by
  induction s with
  | nil => rfl
  | cons c cs ih =>
    simp [strBytes, byteLen, utf8Bytes_length] at ih ⊢
    omega

theorem bytesLtB_nil_right (l : List Nat) : bytesLtB l [] = false := by
  cases l <;> rfl

theorem bytesLtB_irrefl (l : List Nat) : bytesLtB l l = false := by
  induction l with
  | nil => rfl
  | cons a as ih => simp [bytesLtB, ih]

/-- Removing a common prefix does not change the comparison. -/
theorem bytesLtB_append_left (p a b : List Nat) :
    bytesLtB (p ++ a) (p ++ b) = bytesLtB a b := by
  induction p with
  | nil => rfl
  | cons x xs ih => simp [bytesLtB, ih]

/-- Core order fact about UTF-8: the encoding is strictly monotone in the
code point, byte-wise, even when arbitrary bytes are appended after the
smaller character.  This is what makes the increment step of `truncate_up`
produce a byte-wise upper bound. -/
theorem utf8_append_lt (n m : Nat) (r : List Nat) (hnm : n < m) :
    bytesLtB (utf8Bytes n ++ r) (utf8Bytes m) = true := by
  unfold utf8Bytes
  split_ifs <;>
    simp only [List.cons_append, List.nil_append, bytesLtB, bytesLtB_nil_right] <;>
    (first
      | rfl
      | omega
      | (exfalso; omega)
      | (split_ifs <;> first | rfl | omega | (exfalso; omega)))

theorem takePrefixWithin_append_dropWithin (cap : Nat) (s : List Nat) :
    takePrefixWithin cap s ++ dropWithin cap s = s := by
  induction s generalizing cap with
  | nil => rfl
  | cons c cs ih =>
    unfold takePrefixWithin dropWithin
    split_ifs with h
    · simp [ih]
    · rfl

theorem mem_takePrefixWithin (cap : Nat) (s : List Nat) (x : Nat)
    (hx : x ∈ takePrefixWithin cap s) : x ∈ s := by
  induction s generalizing cap with
  | nil => simp [takePrefixWithin] at hx
  | cons c cs ih =>
    unfold takePrefixWithin at hx
    split_ifs at hx with h
    · rcases List.mem_cons.mp hx with h1 | h1
      · simp [h1]
      · exact List.mem_cons_of_mem _ (ih _ h1)
    · simp at hx

theorem takePrefixWithin_ne_nil (cap : Nat) (s : List Nat) (hcap : 4 ≤ cap)
    (hs : s ≠ []) : takePrefixWithin cap s ≠ [] := by
  cases s with
  | nil => exact absurd rfl hs
  | cons c cs =>
    unfold takePrefixWithin
    have := utf8Len_le_four c
    rw [if_pos (by omega)]
    exact List.cons_ne_nil _ _

theorem byteLen_takePrefixWithin_le (cap : Nat) (s : List Nat) :
    byteLen (takePrefixWithin cap s) ≤ cap := by
  induction s generalizing cap with
  | nil => simp [takePrefixWithin, byteLen]
  | cons c cs ih =>
    unfold takePrefixWithin
    split_ifs with h
    · have := ih (cap - utf8Len c)
      simp [byteLen] at this ⊢
      omega
    · simp [byteLen]

theorem incCodepoint_valid (n : Nat) : isValidScalar (incCodepoint n) := by
  unfold incCodepoint isValidScalar
  split_ifs <;> omega

theorem incCodepoint_gt (n : Nat) (hv : isValidScalar n) (hne : n ≠ 0x10FFFF) :
    n < incCodepoint n := by
  unfold isValidScalar at hv
  unfold incCodepoint
  split_ifs <;> omega

theorem pushIncLast_eq_of_ne_nil (l : List Nat) (h : l ≠ []) :
    pushIncLast l = l.dropLast ++ [incCodepoint (l.getLast h)] := by
  cases l with
  | nil => exact absurd rfl h
  | cons c cs => rfl

theorem strBytes_singleton (c : Nat) : strBytes [c] = utf8Bytes c := by
  simp [strBytes]

theorem chain'_le_replicate (n x : Nat) :
    List.Chain' (fun a b => a ≤ b) (List.replicate n x) := by
  induction n with
  | zero => simp
  | succ k ih =>
    cases k with
    | zero => simp
    | succ m =>
      rw [List.replicate_succ]
      rw [List.replicate_succ] at ih ⊢
      exact List.Chain'.cons (le_refl x) (by rw [← List.replicate_succ] at ih ⊢; exact ih)

theorem goodCore_pushValue (v : List Nat) (st : GrowableConstUtf8)
    (h : GoodCore st) :
    GoodCore (GrowableConstUtf8.pushValue v st) ∧
    (GrowableConstUtf8.pushValue v st).offsets.length = st.offsets.length + 1 ∧
    (GrowableConstUtf8.pushValue v st).validity = st.validity ∧
    (GrowableConstUtf8.pushValue v st).length = st.length := by
  obtain ⟨hne, hhead, hchain, hlast⟩ := h
  obtain ⟨o, os, ho⟩ := List.exists_cons_of_ne_nil hne
  have ho0 : o = 0 := by
    rw [ho] at hhead
    simpa using hhead
  have hpv : GrowableConstUtf8.pushValue v st =
      { st with
        values := st.values ++ v,
        offsets := st.offsets ++ [(st.values ++ v).length] } := rfl
  rw [hpv]
  refine ⟨⟨by simp, ?_, ?_, ?_⟩, by simp, rfl, rfl⟩
  · rw [ho, ho0]
    simp
  · rw [List.chain'_append]
    refine ⟨hchain, by simp, ?_⟩
    intro x hx y hy
    simp at hy
    rw [hlast, Option.mem_def] at hx
    have hx2 : st.values.length = x := Option.some.inj hx
    omega
  · simp

theorem goodCore_extendLoop (v : List Nat) (st : GrowableConstUtf8) (k : Nat)
    (h : GoodCore st) :
    GoodCore (GrowableConstUtf8.extendLoop v st k) ∧
    (GrowableConstUtf8.extendLoop v st k).offsets.length =
      st.offsets.length + k ∧
    (GrowableConstUtf8.extendLoop v st k).validity = st.validity ∧
    (GrowableConstUtf8.extendLoop v st k).length = st.length := by
  induction k generalizing st with
  | zero => exact ⟨h, rfl, rfl, rfl⟩
  | succ m ih =>
    simp only [GrowableConstUtf8.extendLoop]
    obtain ⟨h1, h2, h3, h4⟩ := goodCore_pushValue v st h
    obtain ⟨g1, g2, g3, g4⟩ := ih _ h1
    exact ⟨g1, by rw [g2, h2]; omega, by rw [g3, h3], by rw [g4, h4]⟩

theorem good_extend (arrays : List ConstUtf8Array) (st st' : GrowableConstUtf8)
    (index start len : Nat) (h : Good st)
    (hx : GrowableConstUtf8.extend arrays st index start len = some st') :
    Good st' ∧ st'.offsets.length = st.offsets.length + len ∧
    st'.validity = st.validity := by
  obtain ⟨hcore, hlen⟩ := h
  unfold GrowableConstUtf8.extend at hx
  cases harr : arrays[index]? with
  | none => rw [harr] at hx; exact absurd hx (by simp)
  | some array =>
    rw [harr] at hx
    simp only at hx
    split_ifs at hx with hbound
    obtain ⟨g1, g2, g3, g4⟩ :=
      goodCore_extendLoop (strBytes array.value) st len hcore
    obtain ⟨gne, ghead, gchain, glast⟩ := g1
    cases hx
    refine ⟨⟨⟨gne, ghead, gchain, glast⟩, ?_⟩, g2, g3⟩
    rw [List.getLastD_eq_getLast?, glast]
    rfl

theorem good_extend_validity (st : GrowableConstUtf8) (n : Nat) (h : Good st) :
    Good (st.extend_validity n) ∧
    (st.extend_validity n).offsets.length = st.offsets.length + n ∧
    (st.extend_validity n).validity = st.validity ++ List.replicate n false := by
  obtain ⟨⟨hne, hhead, hchain, hlast⟩, hlen⟩ := h
  unfold GrowableConstUtf8.extend_validity
  refine ⟨⟨⟨by simp [hne], ?_, ?_, ?_⟩, hlen⟩, by simp, rfl⟩
  · simpa [hhead] using Or.inl hhead
  · rw [List.chain'_append]
    refine ⟨hchain, chain'_le_replicate n st.length, ?_⟩
    intro x hx y hy
    rw [hlast] at hx
    simp at hx
    cases n with
    | zero => simp at hy
    | succ m =>
      rw [List.replicate_succ] at hy
      simp at hy
      omega
  · cases n with
    | zero => simpa using hlast
    | succ m =>
      dsimp only
      rw [List.replicate_succ', ← List.append_assoc, List.getLast?_concat, hlen]

theorem good_runGrow (arrays : List ConstUtf8Array) (ops : List GrowOp)
    (st st' : GrowableConstUtf8) (h : Good st)
    (hr : runGrow arrays st ops = some st') :
    Good st' ∧ st'.offsets.length = st.offsets.length + numEntries ops := by
  induction ops generalizing st with
  | nil =>
    simp [runGrow] at hr
    subst hr
    exact ⟨h, by simp [numEntries]⟩
  | cons op ops ih =>
    unfold runGrow at hr
    cases hs : stepGrow arrays st op with
    | none => rw [hs] at hr; exact absurd hr (by simp)
    | some st1 =>
      rw [hs] at hr
      simp only at hr
      cases op with
      | extend index start len =>
        obtain ⟨g1, g2, _⟩ := good_extend arrays st st1 index start len h hs
        obtain ⟨f1, f2⟩ := ih st1 g1 hr
        refine ⟨f1, ?_⟩
        rw [f2, g2, numEntries]
        omega
      | extendValidity additional =>
        obtain ⟨g1, g2, _⟩ := good_extend_validity st additional h
        simp only [stepGrow, Option.some.injEq] at hs
        subst hs
        obtain ⟨f1, f2⟩ := ih _ g1 hr
        refine ⟨f1, ?_⟩
        rw [f2, g2, numEntries]
        omega

theorem good_new : Good GrowableConstUtf8.new := by
  refine ⟨⟨by simp [GrowableConstUtf8.new], ?_, ?_, ?_⟩, rfl⟩ <;>
    simp [GrowableConstUtf8.new]

theorem foldl_append_encOne (l : List (List Nat)) (buf : List Nat) :
    l.foldl (fun b v => b ++ encOne v) buf = buf ++ (l.map encOne).flatten := by
  induction l generalizing buf with
  | nil => simp
  | cons v vs ih => simp [ih, List.append_assoc]

theorem foldl_append_encOne_opt (l : List (Option (List Nat))) (buf : List Nat) :
    l.foldl
        (fun b x =>
          match x with
          | none => b
          | some v => b ++ encOne v)
        buf =
      buf ++ ((l.filterMap id).map encOne).flatten := by
  induction l generalizing buf with
  | nil => simp
  | cons x xs ih =>
    cases x with
    | none => simp [ih]
    | some v => simp [ih, List.append_assoc]

theorem bytesLtB_asymm : ∀ (a b : List Nat),
    bytesLtB a b = true → bytesLtB b a = false
  | _, [] => by simp [bytesLtB_nil_right]
  | [], _ :: _ => fun _ => bytesLtB_nil_right _
  | a :: as, b :: bs => by
    intro h
    simp only [bytesLtB] at h ⊢
    rcases Nat.lt_trichotomy a b with h1 | h1 | h1
    · rw [if_neg (by omega), if_neg (by omega)]
    · subst h1
      rw [if_neg (by omega), if_pos rfl] at h ⊢
      exact bytesLtB_asymm as bs h
    · rw [if_neg (by omega), if_neg (by omega)] at h
      cases h

theorem bytesLe_trans : ∀ (a b c : List Nat),
    bytesLtB b a = false → bytesLtB c b = false → bytesLtB c a = false
  | a, b, [] => by
    intro h1 h2
    cases b with
    | cons bh bt => simp [bytesLtB] at h2
    | nil =>
      cases a with
      | nil => rfl
      | cons ah ar => exact h1
  | [], _, _ :: _ => by
    intro h1 h2
    exact bytesLtB_nil_right _
  | _ :: _, [], _ :: _ => by
    intro h1 h2
    simp [bytesLtB] at h1
  | x :: xs, y :: ys, z :: zs => by
    intro h1 h2
    simp only [bytesLtB] at h1 h2 ⊢
    split_ifs at h1 h2 ⊢ <;>
      first
        | rfl
        | omega
        | (exfalso; omega)
        | exact bytesLe_trans xs ys zs h1 h2

theorem ordBinary_gt_iff : ∀ (a b : List Nat),
    ordBinary a b = Ordering.gt ↔ bytesLtB b a = true
  | [], [] => by simp [ordBinary, bytesLtB]
  | [], _ :: _ => by simp [ordBinary, bytesLtB]
  | _ :: _, [] => by simp [ordBinary, bytesLtB]
  | a :: as, b :: bs => by
    simp only [ordBinary, bytesLtB]
    rcases Nat.lt_trichotomy a b with h1 | h1 | h1
    · rw [if_pos h1, if_neg (by omega), if_neg (by omega)]
      simp
    · subst h1
      rw [if_neg (by omega), if_neg (by omega), if_neg (by omega), if_pos rfl]
      exact ordBinary_gt_iff as bs
    · rw [if_neg (by omega), if_pos h1, if_pos h1]
      simp

/-- A failed `gt` comparison, read as a byte-order fact. -/
theorem bytesLtB_false_of_not_gt {u v : List Nat}
    (h : ¬ ordBinary u v = Ordering.gt) : bytesLtB v u = false := by
  cases hcase : bytesLtB v u with
  | false => rfl
  | true => exact absurd ((ordBinary_gt_iff u v).mpr hcase) h

theorem foldl_maxBy_spec {α : Type} (f : α → List Nat) :
    ∀ (xs : List α) (x : α),
      (xs.foldl (fun acc y => if ordBinary (f acc) (f y) = .gt then acc else y) x)
          ∈ x :: xs ∧
      ∀ z ∈ x :: xs,
        bytesLtB
          (f (xs.foldl (fun acc y => if ordBinary (f acc) (f y) = .gt then acc else y) x))
          (f z) = false
  | [], x =>
    ⟨by simp, by
      intro z hz
      simp at hz
      subst hz
      exact bytesLtB_irrefl _⟩
  | y :: ys, x => by
    simp only [List.foldl_cons]
    by_cases hc : ordBinary (f x) (f y) = .gt
    · obtain ⟨hmem, hub⟩ := foldl_maxBy_spec f ys x
      rw [if_pos hc]
      have hyx : bytesLtB (f x) (f y) = false :=
        bytesLtB_asymm _ _ ((ordBinary_gt_iff (f x) (f y)).mp hc)
      refine ⟨?_, ?_⟩
      · rcases List.mem_cons.mp hmem with h | h
        · simp [h]
        · simp [List.mem_cons_of_mem, h]
      · intro z hz
        have hstep := hub x (List.mem_cons_self _ _)
        rcases List.mem_cons.mp hz with rfl | hz1
        · exact hstep
        · rcases List.mem_cons.mp hz1 with rfl | hz2
          · exact bytesLe_trans _ _ _ hyx hstep
          · exact hub z (List.mem_cons_of_mem _ hz2)
    · obtain ⟨hmem, hub⟩ := foldl_maxBy_spec f ys y
      rw [if_neg hc]
      refine ⟨?_, ?_⟩
      · rcases List.mem_cons.mp hmem with h | h
        · simp [h]
        · simp [List.mem_cons_of_mem, h]
      · intro z hz
        have hstep := hub y (List.mem_cons_self _ _)
        rcases List.mem_cons.mp hz with rfl | hz1
        · have hyz : bytesLtB (f y) (f z) = false := bytesLtB_false_of_not_gt hc
          exact bytesLe_trans _ _ _ hyz hstep
        · rcases List.mem_cons.mp hz1 with rfl | hz2
          · exact hstep
          · exact hub z (List.mem_cons_of_mem _ hz2)

theorem foldl_minBy_spec {α : Type} (f : α → List Nat) :
    ∀ (xs : List α) (x : α),
      (xs.foldl (fun acc y => if ordBinary (f acc) (f y) = .gt then y else acc) x)
          ∈ x :: xs ∧
      ∀ z ∈ x :: xs,
        bytesLtB (f z)
          (f (xs.foldl (fun acc y => if ordBinary (f acc) (f y) = .gt then y else acc) x))
          = false
  | [], x =>
    ⟨by simp, by
      intro z hz
      simp at hz
      subst hz
      exact bytesLtB_irrefl _⟩
  | y :: ys, x => by
    simp only [List.foldl_cons]
    by_cases hc : ordBinary (f x) (f y) = .gt
    · obtain ⟨hmem, hlb⟩ := foldl_minBy_spec f ys y
      rw [if_pos hc]
      have hxy : bytesLtB (f x) (f y) = false :=
        bytesLtB_asymm _ _ ((ordBinary_gt_iff (f x) (f y)).mp hc)
      refine ⟨?_, ?_⟩
      · rcases List.mem_cons.mp hmem with h | h
        · simp [h]
        · simp [List.mem_cons_of_mem, h]
      · intro z hz
        have hstep := hlb y (List.mem_cons_self _ _)
        rcases List.mem_cons.mp hz with rfl | hz1
        · exact bytesLe_trans _ _ _ hstep hxy
        · rcases List.mem_cons.mp hz1 with rfl | hz2
          · exact hstep
          · exact hlb z (List.mem_cons_of_mem _ hz2)
    · obtain ⟨hmem, hlb⟩ := foldl_minBy_spec f ys x
      rw [if_neg hc]
      have hyx : bytesLtB (f y) (f x) = false := bytesLtB_false_of_not_gt hc
      refine ⟨?_, ?_⟩
      · rcases List.mem_cons.mp hmem with h | h
        · simp [h]
        · simp [List.mem_cons_of_mem, h]
      · intro z hz
        have hstep := hlb x (List.mem_cons_self _ _)
        rcases List.mem_cons.mp hz with rfl | hz1
        · exact hstep
        · rcases List.mem_cons.mp hz1 with rfl | hz2
          · exact bytesLe_trans _ _ _ hstep hyx
          · exact hlb z (List.mem_cons_of_mem _ hz2)

theorem maxBy_eq_none_iff {α : Type} (cmp : α → α → Ordering) (l : List α) :
    maxBy cmp l = none ↔ l = [] := by
  cases l <;> simp [maxBy]

theorem minBy_eq_none_iff {α : Type} (cmp : α → α → Ordering) (l : List α) :
    minBy cmp l = none ↔ l = [] := by
  cases l <;> simp [minBy]

theorem maxBy_spec {α : Type} (f : α → List Nat) (l : List α) (m : α)
    (h : maxBy (fun x y => ordBinary (f x) (f y)) l = some m) :
    m ∈ l ∧ ∀ z ∈ l, bytesLtB (f m) (f z) = false := by
  cases l with
  | nil => simp [maxBy] at h
  | cons t ts =>
    simp only [maxBy, Option.some.injEq] at h
    subst h
    exact foldl_maxBy_spec f ts t

theorem minBy_spec {α : Type} (f : α → List Nat) (l : List α) (m : α)
    (h : minBy (fun x y => ordBinary (f x) (f y)) l = some m) :
    m ∈ l ∧ ∀ z ∈ l, bytesLtB (f z) (f m) = false := by
  cases l with
  | nil => simp [minBy] at h
  | cons t ts =>
    simp only [minBy, Option.some.injEq] at h
    subst h
    exact foldl_minBy_spec f ts t

/-! ## Claims -/

/-- C1 (amended).  For a string `s` of valid scalars whose byte length
exceeds the 256-byte cap, `truncate_up s` consists of valid scalars (valid
UTF-8); when the last character of the truncated prefix is `U+D7FF` the
increment yields `U+E000`; and whenever that last character is not
`U+10FFFF`, the result is strictly greater than `s` in byte-wise unsigned
lexicographic order.  (As stated the claim fails at the `U+10FFFF` pin —
see the counterexample.) -/
theorem claim_C1_truncate_up_greater (s : List Nat)
    (hv : ∀ c ∈ s, isValidScalar c) (hlen : MAX_STAT_LENGTH < byteLen s) :
    (∀ c ∈ truncate_up s, isValidScalar c) ∧
    ((takePrefixWithin MAX_STAT_LENGTH s).getLast? = some 0xD7FF →
      (truncate_up s).getLast? = some 0xE000) ∧
    ((takePrefixWithin MAX_STAT_LENGTH s).getLast? ≠ some 0x10FFFF →
      bytesLtB (strBytes s) (strBytes (truncate_up s)) = true) := by
  have hs : s ≠ [] := by
    intro h
    rw [h] at hlen
    simp [byteLen, MAX_STAT_LENGTH] at hlen
  have ht : takePrefixWithin MAX_STAT_LENGTH s ≠ [] :=
    takePrefixWithin_ne_nil _ _ (by norm_num [MAX_STAT_LENGTH]) hs
  have htu : truncate_up s = (takePrefixWithin MAX_STAT_LENGTH s).dropLast ++
      [incCodepoint ((takePrefixWithin MAX_STAT_LENGTH s).getLast ht)] := by
    unfold truncate_up
    rw [if_neg (by omega), pushIncLast_eq_of_ne_nil _ ht]
  refine ⟨?_, ?_, ?_⟩
  · intro x hx
    rw [htu] at hx
    rcases List.mem_append.mp hx with h1 | h1
    · exact hv x (mem_takePrefixWithin _ _ _ (List.dropLast_subset _ h1))
    · rw [List.mem_singleton] at h1
      subst h1
      exact incCodepoint_valid _
  · intro hlast
    have hc : (takePrefixWithin MAX_STAT_LENGTH s).getLast ht = 0xD7FF := by
      rw [List.getLast?_eq_getLast _ ht] at hlast
      exact Option.some.inj hlast
    rw [htu, List.getLast?_concat, hc]
    decide
  · intro hne
    have hcne : (takePrefixWithin MAX_STAT_LENGTH s).getLast ht ≠ 0x10FFFF := by
      intro h
      exact hne (by rw [List.getLast?_eq_getLast _ ht, h])
    have hcv : isValidScalar ((takePrefixWithin MAX_STAT_LENGTH s).getLast ht) :=
      hv _ (mem_takePrefixWithin _ _ _ (List.getLast_mem ht))
    have hlt := incCodepoint_gt _ hcv hcne
    have hsplit : strBytes s =
        strBytes (takePrefixWithin MAX_STAT_LENGTH s).dropLast ++
          (utf8Bytes ((takePrefixWithin MAX_STAT_LENGTH s).getLast ht) ++
            strBytes (dropWithin MAX_STAT_LENGTH s)) := by
      conv_lhs => rw [← takePrefixWithin_append_dropWithin MAX_STAT_LENGTH s]
      rw [strBytes_append]
      conv_lhs => rw [← List.dropLast_append_getLast ht]
      rw [strBytes_append, strBytes_singleton, List.append_assoc]
    rw [hsplit, htu, strBytes_append, strBytes_singleton, bytesLtB_append_left]
    exact utf8_append_lt _ _ _ hlt

set_option maxRecDepth 100000 in
/-- C1 counterexample.  The 260-byte string of 65 `U+10FFFF` characters
exceeds the cap, yet `truncate_up` returns its own 64-character prefix —
byte-wise smaller, not strictly greater, refuting the claim as stated. -/
theorem claim_C1_counterexample :
    MAX_STAT_LENGTH < byteLen (List.replicate 65 0x10FFFF) ∧
    truncate_up (List.replicate 65 0x10FFFF) = List.replicate 64 0x10FFFF ∧
    bytesLtB (strBytes (List.replicate 65 0x10FFFF))
      (strBytes (truncate_up (List.replicate 65 0x10FFFF))) = false := by
  refine ⟨by decide, by decide, by decide⟩

set_option maxRecDepth 100000 in
/-- C1 witness: the amended theorem applied to the 300-byte string of the
letter `a`, whose truncation increments the final `a` to `b` and is
strictly greater byte-wise. -/
theorem claim_C1_witness :
    bytesLtB (strBytes (List.replicate 300 97))
      (strBytes (truncate_up (List.replicate 300 97))) = true :=
  (claim_C1_truncate_up_greater (List.replicate 300 97) (by decide)
      (by decide)).2.2 (by decide)

set_option maxRecDepth 100000 in
/-- C4 (code bug).  `truncate_up` promises (in its own doc comment and the
spec) a result of at most `MAX_STAT_LENGTH` bytes, but on the 257-byte
input of 255 `a`s, a `U+007F` and a `b` it truncates to 256 bytes and then
increments the final one-byte `U+007F` to the two-byte `U+0080`, returning
a 257-byte string. -/
theorem claim_C4_cap_exceeded_bug :
    byteLen (List.replicate 255 97 ++ [0x7F, 98]) = 257 ∧
    byteLen (truncate_up (List.replicate 255 97 ++ [0x7F, 98])) = 257 ∧
    MAX_STAT_LENGTH < 257 := by
  refine ⟨by decide, by decide, by decide⟩

/-- C3.  After any interleaved sequence of `extend` / `extend_validity`
calls that completes without a contract violation (index in range, no `i32`
overflow — i.e. the run returns a state), the offsets have length
`entries appended + 1`, are non-decreasing, start at `0`, and end at the
byte length of the values buffer. -/
theorem claim_C3_growable_offsets_invariant (arrays : List ConstUtf8Array)
    (ops : List GrowOp) (st : GrowableConstUtf8)
    (h : runGrow arrays GrowableConstUtf8.new ops = some st) :
    st.offsets.length = numEntries ops + 1 ∧
    List.Chain' (fun a b => a ≤ b) st.offsets ∧
    st.offsets.head? = some 0 ∧
    st.offsets.getLast? = some st.values.length := by
  obtain ⟨⟨⟨_, ghead, gchain, glast⟩, _⟩, glen⟩ :=
    good_runGrow arrays ops GrowableConstUtf8.new st good_new h
  refine ⟨?_, gchain, ghead, glast⟩
  rw [glen]
  simp [GrowableConstUtf8.new]
  omega

/-- C3 witness: the invariant theorem applied to a concrete run over the
constant source `("ab", 3)` with two `extend` calls around an
`extend_validity` call. -/
theorem claim_C3_witness :
    (GrowableConstUtf8.mk [97, 98, 97, 98, 97, 98] [0, 2, 4, 4, 6] [false] 6).offsets.length =
      numEntries [GrowOp.extend 0 0 2, GrowOp.extendValidity 1, GrowOp.extend 0 5 1] + 1 ∧
    List.Chain' (fun a b => a ≤ b)
      (GrowableConstUtf8.mk [97, 98, 97, 98, 97, 98] [0, 2, 4, 4, 6] [false] 6).offsets ∧
    (GrowableConstUtf8.mk [97, 98, 97, 98, 97, 98] [0, 2, 4, 4, 6] [false] 6).offsets.head? =
      some 0 ∧
    (GrowableConstUtf8.mk [97, 98, 97, 98, 97, 98] [0, 2, 4, 4, 6] [false] 6).offsets.getLast? =
      some (GrowableConstUtf8.mk [97, 98, 97, 98, 97, 98] [0, 2, 4, 4, 6] [false] 6).values.length :=
  claim_C3_growable_offsets_invariant [ConstUtf8Array.mk [97, 98] 3]
    [GrowOp.extend 0 0 2, GrowOp.extendValidity 1, GrowOp.extend 0 5 1]
    (GrowableConstUtf8.mk [97, 98, 97, 98, 97, 98] [0, 2, 4, 4, 6] [false] 6)
    (by decide)

/-- C2 (code bug).  `extend` never appends set validity bits, so a run that
mixes `extend` with `extend_validity` materializes a column whose validity
bitmap is shorter than its logical length: one `extend` of one entry
followed by `extend_validity 1` gives a 1-bit bitmap on a column whose
offsets demarcate 2 entries — violating the §3 hard contract that
bit-length equals logical length. -/
theorem claim_C2_validity_length_bug :
    runGrow [ConstUtf8Array.mk [97] 1] GrowableConstUtf8.new
        [GrowOp.extend 0 0 1, GrowOp.extendValidity 1] =
      some (GrowableConstUtf8.mk [97] [0, 1, 1] [false] 1) ∧
    (GrowableConstUtf8.toCol (GrowableConstUtf8.mk [97] [0, 1, 1] [false] 1)).validity =
      some [false] ∧
    (GrowableConstUtf8.toCol (GrowableConstUtf8.mk [97] [0, 1, 1] [false] 1)).offsets.length =
      2 + 1 := by
  refine ⟨by decide, by decide, by decide⟩

/-- C6.  A growable over the single constant source `("ab", 3)`, after one
`extend(0, start, 3)` (any `start`: it is ignored for a constant source),
materializes to offsets `[0, 2, 4, 6]`, values `"ababab"`, and no validity
bitmap. -/
theorem claim_C6_const_roundtrip (start : Nat) :
    runGrow [ConstUtf8Array.mk [97, 98] 3] GrowableConstUtf8.new
        [GrowOp.extend 0 start 3] =
      some (GrowableConstUtf8.mk [97, 98, 97, 98, 97, 98] [0, 2, 4, 6] [] 6) ∧
    GrowableConstUtf8.toCol
        (GrowableConstUtf8.mk [97, 98, 97, 98, 97, 98] [0, 2, 4, 6] [] 6) =
      Utf8Col.mk [0, 2, 4, 6] [97, 98, 97, 98, 97, 98] none := by
  exact ⟨rfl, rfl⟩

/-- C5.  `encode_plain` appends to the buffer exactly the concatenation,
over the present entries in order (all entries when not optional, the
non-null ones when optional), of a 4-byte little-endian length prefix
followed by the entry's UTF-8 bytes; in particular the non-nullable column
`["a", "bb"]` encodes to `01 00 00 00 61 02 00 00 00 62 62`. -/
theorem claim_C5_encode_plain_layout (arr : Utf8Model) (is_optional : Bool)
    (buffer : List Nat) :
    encode_plain arr is_optional buffer =
      buffer ++
        (((if is_optional then arr.iterEntries.filterMap id else arr.values).map
          encOne).flatten) ∧
    encode_plain (Utf8Model.mk [[97], [98, 98]] none) false [] =
      [1, 0, 0, 0, 97, 2, 0, 0, 0, 98, 98] := by
  constructor
  · unfold encode_plain
    cases is_optional with
    | false => simpa using foldl_append_encOne arr.values buffer
    | true => simpa using foldl_append_encOne_opt arr.iterEntries buffer
  · decide

/-- C7.  `build_statistics` reports the column's null count, never a
distinct count; min/max are absent exactly when the column has no non-null
entry; a reported max is, byte-wise, the value of `truncate_up` of some
non-null entry and an upper bound (under the unsigned lexicographic order)
of all of them; a reported min is likewise the value of `truncate_down` of
some non-null entry and a lower bound of all of them. -/
theorem claim_C7_build_statistics_spec (arr : Utf8Model) :
    (build_statistics arr).null_count = some (arr.nullCount : Int) ∧
    (build_statistics arr).distinct_count = none ∧
    ((build_statistics arr).max_value = none ↔ arr.iterEntries.filterMap id = []) ∧
    ((build_statistics arr).min_value = none ↔ arr.iterEntries.filterMap id = []) ∧
    (∀ b, (build_statistics arr).max_value = some b →
      b ∈ ((arr.iterEntries.filterMap id).map truncate_up).map strBytes ∧
      ∀ x ∈ ((arr.iterEntries.filterMap id).map truncate_up).map strBytes,
        bytesLtB b x = false) ∧
    (∀ b, (build_statistics arr).min_value = some b →
      b ∈ ((arr.iterEntries.filterMap id).map truncate_down).map strBytes ∧
      ∀ x ∈ ((arr.iterEntries.filterMap id).map truncate_down).map strBytes,
        bytesLtB x b = false) := by
  refine ⟨rfl, rfl, ?_, ?_, ?_, ?_⟩
  · simp only [build_statistics]
    rw [Option.map_eq_none', maxBy_eq_none_iff, List.map_eq_nil_iff]
  · simp only [build_statistics]
    rw [Option.map_eq_none', minBy_eq_none_iff, List.map_eq_nil_iff]
  · intro b hb
    simp only [build_statistics] at hb
    cases hM : maxBy (fun x y => ordBinary (strBytes x) (strBytes y))
        ((arr.iterEntries.filterMap id).map truncate_up) with
    | none => rw [hM] at hb; cases hb
    | some m =>
      rw [hM] at hb
      obtain ⟨hmem, hub⟩ := maxBy_spec strBytes _ m hM
      have hbm : b = strBytes m := (Option.some.inj hb).symm
      subst hbm
      refine ⟨List.mem_map_of_mem _ hmem, ?_⟩
      intro x hx
      obtain ⟨z, hz, hzx⟩ := List.mem_map.mp hx
      rw [← hzx]
      exact hub z hz
  · intro b hb
    simp only [build_statistics] at hb
    cases hM : minBy (fun x y => ordBinary (strBytes x) (strBytes y))
        ((arr.iterEntries.filterMap id).map truncate_down) with
    | none => rw [hM] at hb; cases hb
    | some m =>
      rw [hM] at hb
      obtain ⟨hmem, hlb⟩ := minBy_spec strBytes _ m hM
      have hbm : b = strBytes m := (Option.some.inj hb).symm
      subst hbm
      refine ⟨List.mem_map_of_mem _ hmem, ?_⟩
      intro x hx
      obtain ⟨z, hz, hzx⟩ := List.mem_map.mp hx
      rw [← hzx]
      exact hlb z hz

/-- C7 witness: the statistics theorem applied to the non-null column
`["banana", "apple", "cherry"]`. -/
theorem claim_C7_witness :
    (build_statistics
        (Utf8Model.mk [[98, 97, 110, 97, 110, 97], [97, 112, 112, 108, 101],
          [99, 104, 101, 114, 114, 121]] none)).null_count =
      some ((Utf8Model.mk [[98, 97, 110, 97, 110, 97], [97, 112, 112, 108, 101],
          [99, 104, 101, 114, 114, 121]] none).nullCount : Int) ∧
    (build_statistics
        (Utf8Model.mk [[98, 97, 110, 97, 110, 97], [97, 112, 112, 108, 101],
          [99, 104, 101, 114, 114, 121]] none)).distinct_count = none ∧
    ((build_statistics
        (Utf8Model.mk [[98, 97, 110, 97, 110, 97], [97, 112, 112, 108, 101],
          [99, 104, 101, 114, 114, 121]] none)).max_value = none ↔
      (Utf8Model.mk [[98, 97, 110, 97, 110, 97], [97, 112, 112, 108, 101],
          [99, 104, 101, 114, 114, 121]] none).iterEntries.filterMap id = []) ∧
    ((build_statistics
        (Utf8Model.mk [[98, 97, 110, 97, 110, 97], [97, 112, 112, 108, 101],
          [99, 104, 101, 114, 114, 121]] none)).min_value = none ↔
      (Utf8Model.mk [[98, 97, 110, 97, 110, 97], [97, 112, 112, 108, 101],
          [99, 104, 101, 114, 114, 121]] none).iterEntries.filterMap id = []) ∧
    (∀ b, (build_statistics
        (Utf8Model.mk [[98, 97, 110, 97, 110, 97], [97, 112, 112, 108, 101],
          [99, 104, 101, 114, 114, 121]] none)).max_value = some b →
      b ∈ (((Utf8Model.mk [[98, 97, 110, 97, 110, 97], [97, 112, 112, 108, 101],
          [99, 104, 101, 114, 114, 121]] none).iterEntries.filterMap id).map
            truncate_up).map strBytes ∧
      ∀ x ∈ (((Utf8Model.mk [[98, 97, 110, 97, 110, 97], [97, 112, 112, 108, 101],
          [99, 104, 101, 114, 114, 121]] none).iterEntries.filterMap id).map
            truncate_up).map strBytes,
        bytesLtB b x = false) ∧
    (∀ b, (build_statistics
        (Utf8Model.mk [[98, 97, 110, 97, 110, 97], [97, 112, 112, 108, 101],
          [99, 104, 101, 114, 114, 121]] none)).min_value = some b →
      b ∈ (((Utf8Model.mk [[98, 97, 110, 97, 110, 97], [97, 112, 112, 108, 101],
          [99, 104, 101, 114, 114, 121]] none).iterEntries.filterMap id).map
            truncate_down).map strBytes ∧
      ∀ x ∈ (((Utf8Model.mk [[98, 97, 110, 97, 110, 97], [97, 112, 112, 108, 101],
          [99, 104, 101, 114, 114, 121]] none).iterEntries.filterMap id).map
            truncate_down).map strBytes,
        bytesLtB x b = false) :=
  claim_C7_build_statistics_spec
    (Utf8Model.mk [[98, 97, 110, 97, 110, 97], [97, 112, 112, 108, 101],
      [99, 104, 101, 114, 114, 121]] none)

/-- C8 counterexample.  A dictionary message whose envelope has a missing
header is not an ignorable empty result: `deserialize_dictionary` returns
the out-of-spec error "Header is required" (here with a dictionary reader
that always succeeds, so the error can only come from the header check). -/
theorem claim_C8_counterexample :
    @deserialize_dictionary (List Nat) (fun _ ds => Except.ok ds) none [] =
      Except.error (Err.oos "Header is required") := rfl

/-- C8 (amended).  In `deserialize_dictionary` it is a *present but
non-dictionary* header that is treated as an ignorable empty result, while
a missing header is an error; and in `deserialize_message` the header
formats the core does not recognize yield a "not yet implemented" error
rather than being silently dropped (a missing header again being an
error). -/
theorem claim_C8_header_dispatch {δ χ : Type} (readBatch : Nat → δ → Except Err χ)
    (readDict : Nat → δ → Except Err δ) (dicts : δ) (b : Nat) (t : String) :
    deserialize_dictionary readDict (some (HeaderRef.recordBatch b)) dicts =
      Except.ok dicts ∧
    deserialize_dictionary readDict (some (HeaderRef.other t)) dicts =
      Except.ok dicts ∧
    deserialize_dictionary readDict none dicts =
      Except.error (Err.oos "Header is required") ∧
    deserialize_message readBatch readDict (some (HeaderRef.other t)) dicts =
      Except.error (Err.nyi (nyiText t)) ∧
    deserialize_message readBatch readDict none dicts =
      Except.error (Err.oos "IPC Message must contain a header") :=
  ⟨rfl, rfl, rfl, rfl, rfl⟩

/-- C9 counterexample.  On a 9-byte payload that starts with the 4-byte
all-`0xFF` marker, the reader hands the deserializer the bytes after index
8 — skipping 8 bytes (marker plus the following 4 length bytes), not
exactly the 4 marker bytes the claim states. -/
theorem claim_C9_counterexample :
    @get_arrow_schema_from_metadata (List Nat) Except.ok
        (Except.ok [255, 255, 255, 255, 0, 0, 0, 0, 9]) = MetaOut.ok [9] ∧
    List.drop 4 [255, 255, 255, 255, 0, 0, 0, 0, 9] ≠ [9] :=
  ⟨rfl, by decide⟩

/-- C9 (amended).  When the decoded payload is at least 8 bytes long and
begins with the all-`0xFF` continuation marker, the schema deserializer
receives the bytes from offset 8 on (the 4 marker bytes plus 4 further
bytes are skipped); and a failed base64 decode is reported as a recoverable
`InvalidArgumentError`, never a silent empty schema. -/
theorem claim_C9_metadata_skip {σ : Type} (deser : List Nat → Except Err σ)
    (bytes : List Nat) (e : String) (hlen : 8 ≤ bytes.length)
    (hmark : bytes.take 4 = [0xFF, 0xFF, 0xFF, 0xFF]) :
    get_arrow_schema_from_metadata deser (Except.ok bytes) =
      MetaOut.ofExcept (deser (bytes.drop 8)) ∧
    get_arrow_schema_from_metadata deser (Except.error e) =
      MetaOut.err (Err.invalidArgument
        ("Unable to decode the encoded schema stored in ARROW:schema, " ++ e)) := by
  constructor
  · rw [show get_arrow_schema_from_metadata deser (Except.ok bytes) =
        (if bytes.length < 4 then MetaOut.panic
          else if bytes.take 4 = [0xFF, 0xFF, 0xFF, 0xFF] then
            if bytes.length < 8 then MetaOut.panic
            else MetaOut.ofExcept (deser (bytes.drop 8))
          else MetaOut.ofExcept (deser bytes)) from rfl]
    rw [if_neg (by omega), if_pos hmark, if_neg (by omega)]
  · rfl

/-- C9 witness: the amended theorem applied to a concrete 10-byte
marker-prefixed payload with the identity deserializer, and the decode
error text "bad". -/
theorem claim_C9_witness :
    get_arrow_schema_from_metadata Except.ok
        (Except.ok [255, 255, 255, 255, 1, 2, 3, 4, 7, 8]) =
      MetaOut.ofExcept (Except.ok
        (List.drop 8 [255, 255, 255, 255, 1, 2, 3, 4, 7, 8])) ∧
    @get_arrow_schema_from_metadata (List Nat) Except.ok
        (Except.error "bad") =
      MetaOut.err (Err.invalidArgument
        ("Unable to decode the encoded schema stored in ARROW:schema, " ++ "bad")) :=
  claim_C9_metadata_skip Except.ok [255, 255, 255, 255, 1, 2, 3, 4, 7, 8] "bad"
    (by decide) (by decide)

/-- C10 (code bug).  `get_arrow_schema_from_metadata` is not total on
successfully decoded payloads: a payload shorter than 4 bytes panics at the
`bytes[0..4]` marker comparison (e.g. the empty string, whose base64
decoding succeeds with 0 bytes), and a marker-prefixed payload of 4 to 7
bytes panics at the `bytes[8..]` slice. -/
theorem claim_C10_short_payload_panic :
    @get_arrow_schema_from_metadata (List Nat) Except.ok (Except.ok []) =
      MetaOut.panic ∧
    @get_arrow_schema_from_metadata (List Nat) Except.ok
        (Except.ok [255, 255, 255, 255]) = MetaOut.panic ∧
    @get_arrow_schema_from_metadata (List Nat) Except.ok
        (Except.ok [255, 255, 255, 255, 0, 0]) = MetaOut.panic :=
  ⟨rfl, rfl, rfl⟩

end Arrow2
